import Mathlib

/-!
A verification development for the `cover` package, which solves the minimum
set cover problem.  Subsets and Elements (opaque, equality-comparable values
in the source) are modelled as natural numbers.  The two incidence maps
`inss : map[Subset]map[Element]struct\x7b\x7d` and `ines` are modelled as finite
sets of pairs: `(s, e) ∈ inss` means `inss[s]` contains `e`, and
`(e, s) ∈ ines` means `ines[e]` contains `s`.

The working snapshot (`c.ss`, `c.es`) is modelled by the sets of *keys* that
remain in the two maps, together with the essential set.  The map *values* are
derived: at every point where a reduction phase begins or ends, the source
maintains `c.ss[s] = inss[s] ∩ (keys of c.es)` (elements are deleted from the
`ss` values exactly when their `es` key is deleted, by `removeE`) and
`c.es[e] = ines[e] ∩ (keys of c.ss)` (subsets are deleted from the `es` values
exactly when their `ss` key is deleted, by `removeS`).  `ssVal` and `esVal`
below compute those derived values.

Both reduction passes of the source are independent of Go's unspecified map
iteration order: `dominates` reads only map values, which `removeS` does not
change, so `reduceS` deletes exactly the subsets dominated by another subset
of the snapshot; and in `reduceE` the degree of a surviving element never
changes during the pass, so the subsets moved to `essential` are exactly the
sole coverers of the degree-one elements present when the pass starts.  The
functional definitions below compute each pass in that one-shot form.
-/

/-- The `Cover` struct: the two append-only incidence maps, the working
snapshot key sets, and the essential set. -/
structure Cover where
  inss : Finset (ℕ × ℕ)
  ines : Finset (ℕ × ℕ)
  ss : Finset ℕ
  es : Finset ℕ
  essential : Finset ℕ

/-- `New` returns an empty Cover. -/
def Cover.New : Cover := ⟨∅, ∅, ∅, ∅, ∅⟩

/-- One step of the loop body of `Add`: record the pair in both incidence
directions. -/
def addPair (s : ℕ) (c : Cover) (e : ℕ) : Cover :=
  { c with inss := insert (s, e) c.inss, ines := insert (e, s) c.ines }

/-- `Add` records that `s` contains `es`.  If `es` is empty, `Add` is a
no-op. -/
def Cover.Add (c : Cover) (s : ℕ) (es : List ℕ) : Cover :=
  if es = [] then c else es.foldl (addPair s) c

/-- A store built by a sequence of `Add` calls starting from `New`; each list
entry is one call `Add s es`. -/
def buildCover (l : List (ℕ × List ℕ)) : Cover :=
  l.foldl (fun c p => Cover.Add c p.1 p.2) Cover.New

/-- The elements recorded for subset `s` in an incidence relation. -/
def elemsOf (R : Finset (ℕ × ℕ)) (s : ℕ) : Finset ℕ :=
  (R.filter fun p => p.1 = s).image Prod.snd

/-- The subsets recorded for element `e` in the inverse incidence relation
(whose pairs are `(element, subset)`). -/
def subsOf (I : Finset (ℕ × ℕ)) (e : ℕ) : Finset ℕ :=
  (I.filter fun p => p.1 = e).image Prod.snd

/-- The value `c.ss[s]` of the working snapshot: the recorded elements of `s`
that have not yet been removed from `c.es`. -/
def ssVal (c : Cover) (s : ℕ) : Finset ℕ := elemsOf c.inss s ∩ c.es

/-- The value `c.es[e]` of the working snapshot: the recorded coverers of `e`
that have not yet been removed from `c.ss`. -/
def esVal (c : Cover) (e : ℕ) : Finset ℕ := subsOf c.ines e ∩ c.ss

/-- `dominates` reports whether Subset `d` dominates Subset `s`: whether `d`'s
elements are a proper superset of `s`'s (inclusion of the snapshot values plus
a strict cardinality increase, exactly as the source's loop-and-length
check). -/
def dominates (c : Cover) (d s : ℕ) : Prop :=
  ssVal c s ⊆ ssVal c d ∧ (ssVal c s).card < (ssVal c d).card

instance (c : Cover) (d s : ℕ) : Decidable (dominates c d s) :=
  inferInstanceAs (Decidable (_ ∧ _))

/-- A subset of the snapshot is dominated when some other snapshot subset
dominates it; `reduceS` removes exactly these. -/
def Dominated (c : Cover) (s : ℕ) : Prop :=
  ∃ d ∈ c.ss, d ≠ s ∧ dominates c d s

instance (c : Cover) (s : ℕ) : Decidable (Dominated c s) :=
  inferInstanceAs (Decidable (∃ d ∈ c.ss, d ≠ s ∧ dominates c d s))

/-- `reduceS` removes all dominated Subsets and reports whether any Subsets
were removed. -/
def reduceS (c : Cover) : Cover × Bool :=
  ({ c with ss := c.ss.filter fun s => ¬ Dominated c s },
   decide (∃ s ∈ c.ss, Dominated c s))

/-- The subsets identified as essential by one `reduceE` pass: the sole
coverers of the elements contained by exactly one snapshot subset. -/
def newEssential (c : Cover) : Finset ℕ :=
  c.ss.filter fun s => ∃ e ∈ c.es, esVal c e = {s}

/-- `reduceE` moves the essential Subsets from `c.ss` to `c.essential`,
removes the Elements they contain from `c.es`, and reports whether any
Elements were removed. -/
def reduceE (c : Cover) : Cover × Bool :=
  ({ c with essential := c.essential ∪ newEssential c,
            ss := c.ss \ newEssential c,
            es := c.es.filter fun e => ∀ s ∈ newEssential c, (s, e) ∉ c.inss },
   decide (newEssential c ≠ ∅))

/-- The loop `for c.reduceE() && c.reduceS() \x7b\x7d` of `simplify`, with an
explicit fuel parameter; `simplify` supplies enough fuel to reach the fixed
point (each iteration that recurses has strictly fewer snapshot subsets). -/
def simplifyLoop : ℕ → Cover → Cover
  | 0, c => c
  | n + 1, c =>
    if (reduceE c).2 = false then (reduceE c).1
    else if (reduceS (reduceE c).1).2 = false then (reduceS (reduceE c).1).1
    else simplifyLoop n (reduceS (reduceE c).1).1

/-- `simplify` simplifies `c` by identifying all essential Subsets and
reports whether the essential Subsets are sufficient to cover all Elements by
themselves (`len(c.es) == 0`). -/
def simplify (c : Cover) : Cover × Bool :=
  ((simplifyLoop ((reduceS c).1.ss.card + 1) (reduceS c).1),
   decide ((simplifyLoop ((reduceS c).1.ss.card + 1) (reduceS c).1).es = ∅))

/-- `initialize` from the source: prepare for minimization by copying the
incidence keys into the snapshot and clearing the essential set. -/
def initCover (c : Cover) : Cover :=
  { c with ss := c.inss.image Prod.fst,
           es := c.ines.image Prod.fst,
           essential := ∅ }

/-- The members of a finite set of naturals listed in increasing order (the
source collects map keys in Go's unspecified iteration order; the model fixes
the increasing order). -/
def finsetAsc (S : Finset ℕ) : List ℕ :=
  (List.range (S.sup id + 1)).filter fun x => x ∈ S

/-- The essential Subsets collected into a slice. -/
def essList (c : Cover) : List ℕ := finsetAsc c.essential

/-- The residual snapshot Subsets collected into a slice. -/
def ssList (c : Cover) : List ℕ := finsetAsc c.ss

/-- The Subsets `ss[i]` selected by the nonzero binary digits of `n`: bit 0
selects the head, and the remaining bits select from the tail. -/
def selBits : List ℕ → ℕ → List ℕ
  | [], _ => []
  | s :: L, n => if n % 2 = 1 then s :: selBits L (n / 2) else selBits L (n / 2)

/-- The coverage check of the search: every remaining Element is covered by
at least one selected Subset. -/
def coversOK (c : Cover) (sel : List ℕ) : Prop :=
  ∀ e ∈ c.es, ∃ s ∈ sel, s ∈ esVal c e

instance (c : Cover) (sel : List ℕ) : Decidable (coversOK c sel) :=
  inferInstanceAs (Decidable (∀ e ∈ c.es, ∃ s ∈ sel, s ∈ esVal c e))

/-- All covering sets found by the exhaustive search: for every
`n = 1, …, 2^len(ss) - 1`, if the Subsets selected by the bits of `n` cover
every remaining Element, emit the essential Subsets followed by the
selection. -/
def allCovers (c : Cover) : List (List ℕ) :=
  (List.range' 1 (2 ^ (ssList c).length - 1)).filterMap fun n =>
    if coversOK c (selBits (ssList c) n) then
      some (essList c ++ selBits (ssList c) n)
    else none

/-- Sort the covering sets by length and return only the shortest: the
members whose length is minimal among all found covering sets. -/
def minOnly (ls : List (List ℕ)) : List (List ℕ) :=
  ls.filter fun l => ls.all fun l2 => l.length ≤ l2.length

/-- `Minimize` returns all minimum-length combinations of Subsets that cover
every Element, together with the final state of the receiver (the source
mutates `c` in place). -/
def Minimize (c : Cover) : List (List ℕ) × Cover :=
  ((if (simplify (initCover c)).2 then [essList (simplify (initCover c)).1]
    else minOnly (allCovers (simplify (initCover c)).1)),
   (simplify (initCover c)).1)

/-- `C` is a covering combination for the incidence relation `R`: every
element ever recorded is contained in at least one subset of `C`. -/
def Covers (R : Finset (ℕ × ℕ)) (C : Finset ℕ) : Prop :=
  ∀ e ∈ R.image Prod.snd, ∃ s ∈ C, (s, e) ∈ R

instance (R : Finset (ℕ × ℕ)) (C : Finset ℕ) : Decidable (Covers R C) :=
  inferInstanceAs (Decidable (∀ e ∈ R.image Prod.snd, ∃ s ∈ C, (s, e) ∈ R))

/-- The state invariant maintained by the reduction phases: the two incidence
directions are inverses; an element key remains in `c.es` exactly when it was
recorded and no essential subset contains it; and every remaining element is
still contained in at least one remaining snapshot subset. -/
def RedInv (c : Cover) : Prop :=
  c.ines = c.inss.image Prod.swap ∧
  (∀ e, e ∈ c.es ↔ e ∈ c.inss.image Prod.snd ∧ ∀ s ∈ c.essential, (s, e) ∉ c.inss) ∧
  ∀ e ∈ c.es, ∃ s ∈ c.ss, (s, e) ∈ c.inss

/-- Every covering combination can be normalized — without growing — into one
that contains all essential subsets found so far and otherwise uses only
subsets still in the snapshot.  This is the property that makes the reduction
phases lossless for minimality. -/
def RedNorm (c : Cover) : Prop :=
  ∀ C : Finset ℕ, Covers c.inss C →
    ∃ D : Finset ℕ, Covers c.inss D ∧ D.card ≤ C.card ∧
      c.essential ⊆ D ∧ D \ c.essential ⊆ c.ss

/-- The size of the working snapshot: remaining subsets plus remaining
elements. -/
def snapMeasure (c : Cover) : ℕ := c.ss.card + c.es.card

/-- A concrete snapshot on which one essential extraction (element 1 forces
subset 10) enables a further domination reduction (subset 30 becomes
dominated). -/
def stateC6 : Cover :=
  { inss := {(10, 1), (10, 2), (20, 2), (20, 3), (30, 2), (40, 3)},
    ines := {(1, 10), (2, 10), (2, 20), (3, 20), (2, 30), (3, 40)},
    ss := {10, 20, 30, 40}, es := {1, 2, 3}, essential := ∅ }

/-! ### Basic membership lemmas -/

theorem mem_elemsOf {R : Finset (ℕ × ℕ)} {s e : ℕ} :
    e ∈ elemsOf R s ↔ (s, e) ∈ R := by
  unfold elemsOf
  simp only [Finset.mem_image, Finset.mem_filter, Prod.exists]
  constructor
  · rintro ⟨a, b, ⟨hp, h1⟩, h2⟩
    subst h1; subst h2; exact hp
  · exact fun h => ⟨s, e, ⟨h, rfl⟩, rfl⟩

theorem mem_subsOf {I : Finset (ℕ × ℕ)} {e x : ℕ} :
    x ∈ subsOf I e ↔ (e, x) ∈ I := by
  unfold subsOf
  simp only [Finset.mem_image, Finset.mem_filter, Prod.exists]
  constructor
  · rintro ⟨a, b, ⟨hp, h1⟩, h2⟩
    subst h1; subst h2; exact hp
  · exact fun h => ⟨e, x, ⟨h, rfl⟩, rfl⟩

theorem mem_ssVal {c : Cover} {s e : ℕ} :
    e ∈ ssVal c s ↔ (s, e) ∈ c.inss ∧ e ∈ c.es := by
  simp [ssVal, Finset.mem_inter, mem_elemsOf]

theorem mem_esVal {c : Cover} {e x : ℕ} :
    x ∈ esVal c e ↔ (e, x) ∈ c.ines ∧ x ∈ c.ss := by
  simp [esVal, Finset.mem_inter, mem_subsOf]

theorem mem_image_swap {R : Finset (ℕ × ℕ)} {a b : ℕ} :
    (a, b) ∈ R.image Prod.swap ↔ (b, a) ∈ R := by
  simp only [Finset.mem_image, Prod.exists]
  constructor
  · rintro ⟨x, y, hp, h⟩
    rw [Prod.swap_prod_mk, Prod.mk.injEq] at h
    obtain ⟨h1, h2⟩ := h
    subst h1; subst h2; exact hp
  · exact fun h => ⟨b, a, h, rfl⟩

theorem mem_esVal_inss {c : Cover} (hw : c.ines = c.inss.image Prod.swap)
    {e x : ℕ} : x ∈ esVal c e ↔ (x, e) ∈ c.inss ∧ x ∈ c.ss := by
  rw [mem_esVal, hw, mem_image_swap]

/-! ### Characterization of `Add` and `buildCover` -/

theorem foldl_addPair_inss (s : ℕ) :
    ∀ (es : List ℕ) (c : Cover) (a b : ℕ),
      (a, b) ∈ (es.foldl (addPair s) c).inss ↔
        (a, b) ∈ c.inss ∨ (a = s ∧ b ∈ es) := by
  intro es
  induction es with
  | nil => simp
  | cons e tl ih =>
    intro c a b
    simp only [List.foldl_cons, ih, addPair, Finset.mem_insert, List.mem_cons,
      Prod.mk.injEq]
    tauto

theorem foldl_addPair_ines (s : ℕ) :
    ∀ (es : List ℕ) (c : Cover) (a b : ℕ),
      (a, b) ∈ (es.foldl (addPair s) c).ines ↔
        (a, b) ∈ c.ines ∨ (b = s ∧ a ∈ es) := by
  intro es
  induction es with
  | nil => simp
  | cons e tl ih =>
    intro c a b
    simp only [List.foldl_cons, ih, addPair, Finset.mem_insert, List.mem_cons,
      Prod.mk.injEq]
    tauto

theorem mem_Add_inss {c : Cover} {s : ℕ} {es : List ℕ} {a b : ℕ} :
    (a, b) ∈ (c.Add s es).inss ↔ (a, b) ∈ c.inss ∨ (a = s ∧ b ∈ es) := by
  unfold Cover.Add
  split
  · next h => subst h; simp
  · exact foldl_addPair_inss s es c a b

theorem mem_Add_ines {c : Cover} {s : ℕ} {es : List ℕ} {a b : ℕ} :
    (a, b) ∈ (c.Add s es).ines ↔ (a, b) ∈ c.ines ∨ (b = s ∧ a ∈ es) := by
  unfold Cover.Add
  split
  · next h => subst h; simp
  · exact foldl_addPair_ines s es c a b

theorem Add_wf {c : Cover} {s : ℕ} {es : List ℕ}
    (h : c.ines = c.inss.image Prod.swap) :
    (c.Add s es).ines = (c.Add s es).inss.image Prod.swap := by
  ext ⟨a, b⟩
  rw [mem_image_swap, mem_Add_inss, mem_Add_ines, ← mem_image_swap (R := c.inss), ← h]

theorem foldl_build_mem_inss :
    ∀ (l : List (ℕ × List ℕ)) (c : Cover) (a b : ℕ),
      (a, b) ∈ (l.foldl (fun c q => Cover.Add c q.1 q.2) c).inss ↔
        (a, b) ∈ c.inss ∨ ∃ q ∈ l, q.1 = a ∧ b ∈ q.2 := by
  intro l
  induction l with
  | nil => simp
  | cons q tl ih =>
    intro c a b
    simp only [List.foldl_cons, ih, mem_Add_inss, List.mem_cons]
    constructor
    · rintro ((h | ⟨h1, h2⟩) | ⟨r, hr, h3, h4⟩)
      · exact Or.inl h
      · exact Or.inr ⟨q, Or.inl rfl, h1 ▸ rfl, h2⟩
      · exact Or.inr ⟨r, Or.inr hr, h3, h4⟩
    · rintro (h | ⟨r, hr | hr, h3, h4⟩)
      · exact Or.inl (Or.inl h)
      · subst hr; exact Or.inl (Or.inr ⟨h3.symm, h4⟩)
      · exact Or.inr ⟨r, hr, h3, h4⟩

theorem mem_buildCover_inss {l : List (ℕ × List ℕ)} {s e : ℕ} :
    (s, e) ∈ (buildCover l).inss ↔ ∃ q ∈ l, q.1 = s ∧ e ∈ q.2 := by
  unfold buildCover
  rw [foldl_build_mem_inss]
  simp [Cover.New]

theorem buildCover_wf (l : List (ℕ × List ℕ)) :
    (buildCover l).ines = (buildCover l).inss.image Prod.swap := by
  unfold buildCover
  have aux : ∀ (l : List (ℕ × List ℕ)) (c : Cover),
      c.ines = c.inss.image Prod.swap →
      (l.foldl (fun c q => Cover.Add c q.1 q.2) c).ines =
        (l.foldl (fun c q => Cover.Add c q.1 q.2) c).inss.image Prod.swap := by
    intro l
    induction l with
    | nil => intro c h; simpa using h
    | cons q tl ih =>
      intro c h
      exact ih _ (Add_wf h)
  exact aux l Cover.New (by simp [Cover.New])

/-! ### `initCover` establishes the invariants -/

theorem initCover_inss (c : Cover) : (initCover c).inss = c.inss := rfl

theorem initCover_ines (c : Cover) : (initCover c).ines = c.ines := rfl

theorem redInv_initCover {c : Cover} (hw : c.ines = c.inss.image Prod.swap) :
    RedInv (initCover c) := by
  refine ⟨hw, ?_, ?_⟩
  · intro e
    simp only [initCover, hw, Finset.not_mem_empty, false_implies, implies_true,
      and_true]
    constructor
    · rintro h
      obtain ⟨⟨x, y⟩, hp, h2⟩ := Finset.mem_image.mp h
      rw [mem_image_swap] at hp
      simp only at h2
      subst h2
      exact Finset.mem_image.mpr ⟨(y, x), hp, rfl⟩
    · intro h
      obtain ⟨⟨x, y⟩, hp, h2⟩ := Finset.mem_image.mp h
      simp only at h2
      subst h2
      exact Finset.mem_image.mpr ⟨(x, y).swap, Finset.mem_image.mpr ⟨(x, y), hp, rfl⟩, rfl⟩
  · intro e he
    simp only [initCover] at he ⊢
    rw [hw] at he
    obtain ⟨⟨x, y⟩, hp, h2⟩ := Finset.mem_image.mp he
    rw [mem_image_swap] at hp
    simp only at h2
    subst h2
    exact ⟨y, Finset.mem_image.mpr ⟨(y, x), hp, rfl⟩, hp⟩

theorem redNorm_initCover (c : Cover) : RedNorm (initCover c) := by
  intro C hC
  refine ⟨C ∩ c.inss.image Prod.fst, ?_, Finset.card_le_card Finset.inter_subset_left,
    by simp [initCover], ?_⟩
  · intro e he
    obtain ⟨s, hs, hse⟩ := hC e he
    exact ⟨s, Finset.mem_inter.mpr ⟨hs, Finset.mem_image.mpr ⟨(s, e), hse, rfl⟩⟩, hse⟩
  · intro s hs
    simp only [initCover]
    exact (Finset.mem_inter.mp (Finset.mem_sdiff.mp hs).1).2

/-! ### `reduceS`: field stability, invariant and normalization -/

theorem reduceS_inss (c : Cover) : (reduceS c).1.inss = c.inss := rfl

theorem reduceS_ines (c : Cover) : (reduceS c).1.ines = c.ines := rfl

theorem reduceS_es (c : Cover) : (reduceS c).1.es = c.es := rfl

theorem reduceS_essential (c : Cover) : (reduceS c).1.essential = c.essential := rfl

theorem reduceS_ss (c : Cover) :
    (reduceS c).1.ss = c.ss.filter fun s => ¬ Dominated c s := rfl

theorem reduceS_ss_subset (c : Cover) : (reduceS c).1.ss ⊆ c.ss :=
  Finset.filter_subset _ _

theorem ssVal_reduceS (c : Cover) (s : ℕ) : ssVal (reduceS c).1 s = ssVal c s := rfl

/-- Every snapshot subset has an undominated snapshot subset whose value
includes its own (itself, or a maximal dominator). -/
theorem exists_undominated {c : Cover} {s : ℕ} (hs : s ∈ c.ss) :
    ∃ d ∈ c.ss, ¬ Dominated c d ∧ ssVal c s ⊆ ssVal c d := by
  have hne : (c.ss.filter fun d => ssVal c s ⊆ ssVal c d).Nonempty :=
    ⟨s, Finset.mem_filter.mpr ⟨hs, Finset.Subset.refl _⟩⟩
  obtain ⟨d, hd, hmax⟩ := Finset.exists_max_image
    (c.ss.filter fun d => ssVal c s ⊆ ssVal c d) (fun d => (ssVal c d).card) hne
  obtain ⟨hdss, hsub⟩ := Finset.mem_filter.mp hd
  refine ⟨d, hdss, ?_, hsub⟩
  rintro ⟨d2, hd2, hne2, hsub2, hcard2⟩
  have : d2 ∈ c.ss.filter fun d => ssVal c s ⊆ ssVal c d :=
    Finset.mem_filter.mpr ⟨hd2, hsub.trans hsub2⟩
  exact absurd (hmax d2 this) (by omega)

theorem redInv_reduceS {c : Cover} (h : RedInv c) : RedInv (reduceS c).1 := by
  obtain ⟨hw, hes, hcov⟩ := h
  refine ⟨hw, hes, ?_⟩
  intro e he
  rw [reduceS_es] at he
  obtain ⟨s, hs, hse⟩ := hcov e he
  obtain ⟨d, hd, hnd, hsub⟩ := exists_undominated hs
  have : e ∈ ssVal c d := hsub (mem_ssVal.mpr ⟨hse, he⟩)
  exact ⟨d, by rw [reduceS_ss]; exact Finset.mem_filter.mpr ⟨hd, hnd⟩,
    (mem_ssVal.mp this).1⟩

theorem redNorm_reduceS {c : Cover} (hi : RedInv c) (h : RedNorm c) :
    RedNorm (reduceS c).1 := by
  obtain ⟨hw, hes, hcov⟩ := hi
  intro C hC
  rw [reduceS_inss] at hC ⊢
  obtain ⟨D, hDcov, hDcard, hDess, hDss⟩ := h C hC
  classical
  -- replace each non-essential member of D by an undominated subset whose
  -- value includes its own
  let f : ℕ → ℕ := fun s =>
    if hs : s ∈ c.ss then (exists_undominated hs).choose else s
  have hf : ∀ s ∈ c.ss, f s ∈ c.ss ∧ ¬ Dominated c (f s) ∧ ssVal c s ⊆ ssVal c (f s) := by
    intro s hs
    have := (exists_undominated hs).choose_spec
    simp only [f, dif_pos hs]
    exact ⟨this.1, this.2.1, this.2.2⟩
  refine ⟨c.essential ∪ (D \ c.essential).image f, ?_, ?_, ?_, ?_⟩
  · -- still a covering combination
    intro e he
    obtain ⟨s, hsD, hse⟩ := hDcov e he
    by_cases hees : e ∈ c.es
    · by_cases hsess : s ∈ c.essential
      · exact ⟨s, Finset.mem_union_left _ hsess, hse⟩
      · have hsss : s ∈ c.ss := hDss (Finset.mem_sdiff.mpr ⟨hsD, hsess⟩)
        obtain ⟨hf1, hf2, hf3⟩ := hf s hsss
        have : e ∈ ssVal c (f s) := hf3 (mem_ssVal.mpr ⟨hse, hees⟩)
        exact ⟨f s, Finset.mem_union_right _
          (Finset.mem_image.mpr ⟨s, Finset.mem_sdiff.mpr ⟨hsD, hsess⟩, rfl⟩),
          (mem_ssVal.mp this).1⟩
    · -- already covered by an essential subset
      have := (hes e).mp
      have hnot : ¬ (e ∈ c.inss.image Prod.snd ∧ ∀ s ∈ c.essential, (s, e) ∉ c.inss) :=
        fun hc => hees ((hes e).mpr hc)
      push_neg at hnot
      obtain ⟨t, ht, hte⟩ := hnot he
      exact ⟨t, Finset.mem_union_left _ ht, hte⟩
  · -- no larger than D
    calc (c.essential ∪ (D \ c.essential).image f).card
        ≤ c.essential.card + ((D \ c.essential).image f).card :=
          Finset.card_union_le _ _
      _ ≤ c.essential.card + (D \ c.essential).card :=
          Nat.add_le_add_left (Finset.card_image_le) _
      _ = D.card := by
          rw [Nat.add_comm]
          exact Finset.card_sdiff_add_card_eq_card hDess
      _ ≤ C.card := hDcard
  · exact Finset.subset_union_left
  · intro s hsm
    obtain ⟨hsm1, hsm2⟩ := Finset.mem_sdiff.mp hsm
    rcases Finset.mem_union.mp hsm1 with h1 | h1
    · exact absurd h1 hsm2
    · obtain ⟨t, ht, rfl⟩ := Finset.mem_image.mp h1
      have htss : t ∈ c.ss := hDss ht
      obtain ⟨hf1, hf2, _⟩ := hf t htss
      rw [reduceS_ss]
      exact Finset.mem_filter.mpr ⟨hf1, hf2⟩

/-! ### `reduceE`: field stability, invariant and normalization -/

theorem reduceE_inss (c : Cover) : (reduceE c).1.inss = c.inss := rfl

theorem reduceE_ines (c : Cover) : (reduceE c).1.ines = c.ines := rfl

theorem reduceE_ss (c : Cover) : (reduceE c).1.ss = c.ss \ newEssential c := rfl

theorem reduceE_es (c : Cover) :
    (reduceE c).1.es = c.es.filter fun e => ∀ s ∈ newEssential c, (s, e) ∉ c.inss :=
  rfl

theorem reduceE_essential (c : Cover) :
    (reduceE c).1.essential = c.essential ∪ newEssential c := rfl

theorem newEssential_subset (c : Cover) : newEssential c ⊆ c.ss :=
  Finset.filter_subset _ _

theorem mem_newEssential {c : Cover} {s : ℕ} :
    s ∈ newEssential c ↔ s ∈ c.ss ∧ ∃ e ∈ c.es, esVal c e = {s} := by
  simp [newEssential]

/-- Every newly essential subset already belongs to every normalized covering
combination: its witness element is covered by no other snapshot subset. -/
theorem newEssential_mem_of_norm {c : Cover} (hi : RedInv c)
    {D : Finset ℕ} (hDcov : Covers c.inss D) (hDess : c.essential ⊆ D)
    (hDss : D \ c.essential ⊆ c.ss) :
    newEssential c ⊆ D := by
  obtain ⟨hw, hes, _⟩ := hi
  intro s hsne
  obtain ⟨hsss, e, he, hesv⟩ := mem_newEssential.mp hsne
  have heU : e ∈ c.inss.image Prod.snd := ((hes e).mp he).1
  obtain ⟨t, htD, hte⟩ := hDcov e heU
  have htess : t ∉ c.essential := fun hmem => ((hes e).mp he).2 t hmem hte
  have htss : t ∈ c.ss := hDss (Finset.mem_sdiff.mpr ⟨htD, htess⟩)
  have : t ∈ esVal c e := (mem_esVal_inss hw).mpr ⟨hte, htss⟩
  rw [hesv, Finset.mem_singleton] at this
  exact this ▸ htD

theorem redInv_reduceE {c : Cover} (h : RedInv c) : RedInv (reduceE c).1 := by
  obtain ⟨hw, hes, hcov⟩ := h
  refine ⟨hw, ?_, ?_⟩
  · intro e
    rw [reduceE_es, Finset.mem_filter, reduceE_essential, reduceE_inss, hes e]
    constructor
    · rintro ⟨⟨h1, h2⟩, h3⟩
      exact ⟨h1, fun s hs => (Finset.mem_union.mp hs).elim (h2 s) (h3 s)⟩
    · rintro ⟨h1, h2⟩
      exact ⟨⟨h1, fun s hs => h2 s (Finset.mem_union_left _ hs)⟩,
        fun s hs => h2 s (Finset.mem_union_right _ hs)⟩
  · intro e he
    rw [reduceE_es, Finset.mem_filter] at he
    obtain ⟨he1, he2⟩ := he
    obtain ⟨s, hs, hse⟩ := hcov e he1
    have hsne : s ∉ newEssential c := fun hmem => he2 s hmem hse
    exact ⟨s, by rw [reduceE_ss]; exact Finset.mem_sdiff.mpr ⟨hs, hsne⟩, hse⟩

theorem redNorm_reduceE {c : Cover} (hi : RedInv c) (h : RedNorm c) :
    RedNorm (reduceE c).1 := by
  intro C hC
  rw [reduceE_inss] at hC ⊢
  obtain ⟨D, hDcov, hDcard, hDess, hDss⟩ := h C hC
  have hne : newEssential c ⊆ D := newEssential_mem_of_norm hi hDcov hDess hDss
  refine ⟨D, hDcov, hDcard, ?_, ?_⟩
  · rw [reduceE_essential]
    exact Finset.union_subset hDess hne
  · intro x hx
    rw [reduceE_essential] at hx
    obtain ⟨hx1, hx2⟩ := Finset.mem_sdiff.mp hx
    rw [Finset.mem_union, not_or] at hx2
    rw [reduceE_ss]
    exact Finset.mem_sdiff.mpr ⟨hDss (Finset.mem_sdiff.mpr ⟨hx1, hx2.1⟩), hx2.2⟩

theorem reduceE_snd_iff {c : Cover} :
    (reduceE c).2 = true ↔ (newEssential c).Nonempty := by
  simp [reduceE, Finset.nonempty_iff_ne_empty]

theorem reduceE_ss_card {c : Cover} (h : (reduceE c).2 = true) :
    (reduceE c).1.ss.card < c.ss.card := by
  rw [reduceE_ss]
  exact Finset.card_lt_card
    (Finset.sdiff_ssubset (newEssential_subset c) (reduceE_snd_iff.mp h))

theorem reduceE_es_ssubset {c : Cover} (hw : c.ines = c.inss.image Prod.swap)
    (h : (reduceE c).2 = true) : (reduceE c).1.es ⊂ c.es := by
  obtain ⟨s, hs⟩ := reduceE_snd_iff.mp h
  obtain ⟨hsss, e, he, hesv⟩ := mem_newEssential.mp hs
  have hse : s ∈ esVal c e := by rw [hesv]; exact Finset.mem_singleton_self s
  have hinss : (s, e) ∈ c.inss := ((mem_esVal_inss hw).mp hse).1
  refine Finset.ssubset_iff_of_subset (by rw [reduceE_es]; exact Finset.filter_subset _ _)
    |>.mpr ⟨e, he, ?_⟩
  rw [reduceE_es, Finset.mem_filter]
  rintro ⟨-, h2⟩
  exact h2 s hs hinss

/-! ### The simplification loop and `simplify` -/

theorem reduceS_snd_iff {c : Cover} :
    (reduceS c).2 = true ↔ ∃ s ∈ c.ss, Dominated c s := by
  simp [reduceS]

theorem reduceS_ss_ssubset {c : Cover} (h : (reduceS c).2 = true) :
    (reduceS c).1.ss ⊂ c.ss := by
  rw [reduceS_ss, Finset.filter_ssubset]
  obtain ⟨s, hs, hd⟩ := reduceS_snd_iff.mp h
  exact ⟨s, hs, not_not.mpr hd⟩

theorem simplifyLoop_inss : ∀ (n : ℕ) (c : Cover), (simplifyLoop n c).inss = c.inss := by
  intro n
  induction n with
  | zero => intro c; rfl
  | succ n ih =>
    intro c
    rw [simplifyLoop]
    split
    · rfl
    · split
      · rfl
      · rw [ih]; rfl

theorem simplifyLoop_ines : ∀ (n : ℕ) (c : Cover), (simplifyLoop n c).ines = c.ines := by
  intro n
  induction n with
  | zero => intro c; rfl
  | succ n ih =>
    intro c
    rw [simplifyLoop]
    split
    · rfl
    · split
      · rfl
      · rw [ih]; rfl

theorem simplifyLoop_good : ∀ (n : ℕ) (c : Cover), RedInv c → RedNorm c →
    RedInv (simplifyLoop n c) ∧ RedNorm (simplifyLoop n c) := by
  intro n
  induction n with
  | zero => exact fun c hi hn => ⟨hi, hn⟩
  | succ n ih =>
    intro c hi hn
    rw [simplifyLoop]
    split
    · exact ⟨redInv_reduceE hi, redNorm_reduceE hi hn⟩
    · split
      · exact ⟨redInv_reduceS (redInv_reduceE hi),
          redNorm_reduceS (redInv_reduceE hi) (redNorm_reduceE hi hn)⟩
      · exact ih _ (redInv_reduceS (redInv_reduceE hi))
          (redNorm_reduceS (redInv_reduceE hi) (redNorm_reduceE hi hn))

theorem simplifyLoop_fuel : ∀ (n m : ℕ) (c : Cover),
    c.ss.card < n → c.ss.card < m → simplifyLoop n c = simplifyLoop m c := by
  intro n
  induction n with
  | zero => exact fun m c h _ => absurd h (Nat.not_lt_zero _)
  | succ n ih =>
    intro m c hn hm
    cases m with
    | zero => exact absurd hm (Nat.not_lt_zero _)
    | succ m =>
      rw [simplifyLoop, simplifyLoop]
      by_cases h1 : (reduceE c).2 = false
      · rw [if_pos h1, if_pos h1]
      · rw [if_neg h1, if_neg h1]
        by_cases h2 : (reduceS (reduceE c).1).2 = false
        · rw [if_pos h2, if_pos h2]
        · rw [if_neg h2, if_neg h2]
          have hE : (reduceE c).2 = true := by
            revert h1; cases (reduceE c).2 <;> simp
          have hlt : (reduceE c).1.ss.card < c.ss.card := reduceE_ss_card hE
          have hle : (reduceS (reduceE c).1).1.ss.card ≤ (reduceE c).1.ss.card :=
            Finset.card_le_card (reduceS_ss_subset _)
          exact ih m _ (by omega) (by omega)

theorem simplify_inss (c : Cover) : (simplify c).1.inss = c.inss := by
  rw [simplify]
  rw [simplifyLoop_inss, reduceS_inss]

theorem simplify_ines (c : Cover) : (simplify c).1.ines = c.ines := by
  rw [simplify]
  rw [simplifyLoop_ines, reduceS_ines]

theorem simplify_snd_iff {c : Cover} :
    (simplify c).2 = true ↔ (simplify c).1.es = ∅ := by
  rw [simplify]
  simp

theorem simplify_good {c : Cover} (hi : RedInv c) (hn : RedNorm c) :
    RedInv (simplify c).1 ∧ RedNorm (simplify c).1 := by
  rw [simplify]
  exact simplifyLoop_good _ _ (redInv_reduceS hi) (redNorm_reduceS hi hn)

/-- The invariants hold at the state `Minimize` reaches after simplification,
for any store whose incidence directions are inverses. -/
theorem good_minimize_state {c : Cover} (hw : c.ines = c.inss.image Prod.swap) :
    RedInv (simplify (initCover c)).1 ∧ RedNorm (simplify (initCover c)).1 :=
  simplify_good (redInv_initCover hw) (redNorm_initCover c)

/-! ### The exhaustive search -/

theorem mem_finsetAsc {S : Finset ℕ} {x : ℕ} : x ∈ finsetAsc S ↔ x ∈ S := by
  unfold finsetAsc
  simp only [List.mem_filter, List.mem_range, decide_eq_true_eq]
  refine ⟨fun h => h.2, fun h => ⟨?_, h⟩⟩
  have : id x ≤ S.sup id := Finset.le_sup h
  simp only [id] at this
  omega

theorem finsetAsc_nodup (S : Finset ℕ) : (finsetAsc S).Nodup :=
  List.Nodup.filter _ (List.nodup_range _)

theorem finsetAsc_toFinset (S : Finset ℕ) : (finsetAsc S).toFinset = S := by
  ext x
  rw [List.mem_toFinset, mem_finsetAsc]

theorem finsetAsc_length (S : Finset ℕ) : (finsetAsc S).length = S.card := by
  conv_rhs => rw [← finsetAsc_toFinset S]
  exact (List.toFinset_card_of_nodup (finsetAsc_nodup S)).symm

theorem mem_essList {c : Cover} {s : ℕ} : s ∈ essList c ↔ s ∈ c.essential :=
  mem_finsetAsc

theorem essList_length (c : Cover) : (essList c).length = c.essential.card :=
  finsetAsc_length _

theorem mem_ssList {c : Cover} {s : ℕ} : s ∈ ssList c ↔ s ∈ c.ss :=
  mem_finsetAsc

/-- Every subset of the listed snapshot subsets is selected by the binary
digits of some index below `2 ^ len`, nonzero whenever the subset is
nonempty. -/
theorem exists_selBits : ∀ (L : List ℕ) (S : Finset ℕ), (∀ x ∈ S, x ∈ L) →
    ∃ n, n < 2 ^ L.length ∧ (selBits L n).toFinset = S ∧
      (selBits L n).length = S.card ∧ (S.Nonempty → 1 ≤ n) := by
  intro L
  induction L with
  | nil =>
    intro S hS
    have hSe : S = ∅ := Finset.eq_empty_of_forall_not_mem
      fun x hx => (List.not_mem_nil x) (hS x hx)
    subst hSe
    exact ⟨0, by simp [selBits], by simp [selBits], by simp [selBits],
      fun h => absurd h Finset.not_nonempty_empty⟩
  | cons a L ih =>
    intro S hS
    obtain ⟨n, hn, htf, hlen, hpos⟩ := ih (S.erase a) fun x hx => by
      obtain ⟨hxa, hxS⟩ := Finset.mem_erase.mp hx
      rcases List.mem_cons.mp (hS x hxS) with h | h
      · exact absurd h hxa
      · exact h
    by_cases ha : a ∈ S
    · refine ⟨2 * n + 1, ?_, ?_, ?_, fun _ => by omega⟩
      · rw [List.length_cons, Nat.pow_succ]; omega
      · have h2 : (2 * n + 1) % 2 = 1 := by omega
        have h3 : (2 * n + 1) / 2 = n := by omega
        simp only [selBits, h2, h3, if_pos]
        rw [List.toFinset_cons, htf]
        exact Finset.insert_erase ha
      · have h2 : (2 * n + 1) % 2 = 1 := by omega
        have h3 : (2 * n + 1) / 2 = n := by omega
        simp only [selBits, h2, h3, if_pos, List.length_cons]
        rw [hlen]
        exact Finset.card_erase_add_one ha
    · have hSe : S.erase a = S := Finset.erase_eq_of_not_mem ha
      refine ⟨2 * n, ?_, ?_, ?_, ?_⟩
      · rw [List.length_cons, Nat.pow_succ]; omega
      · have h2 : ¬ (2 * n) % 2 = 1 := by omega
        have h3 : 2 * n / 2 = n := by omega
        simp only [selBits, h3, if_neg h2]
        rw [htf, hSe]
      · have h2 : ¬ (2 * n) % 2 = 1 := by omega
        have h3 : 2 * n / 2 = n := by omega
        simp only [selBits, h3, if_neg h2]
        rw [hlen, hSe]
      · intro hne
        have : (S.erase a).Nonempty := by rw [hSe]; exact hne
        have := hpos this
        omega

theorem mem_allCovers {c : Cover} {combo : List ℕ} :
    combo ∈ allCovers c ↔ ∃ n, 1 ≤ n ∧ n < 2 ^ (ssList c).length ∧
      coversOK c (selBits (ssList c) n) ∧
      combo = essList c ++ selBits (ssList c) n := by
  have hpow : 1 ≤ 2 ^ (ssList c).length := Nat.one_le_two_pow
  unfold allCovers
  rw [List.mem_filterMap]
  constructor
  · rintro ⟨n, hn, heq⟩
    rw [List.mem_range'_1] at hn
    split at heq
    · next hok =>
      rw [Option.some.injEq] at heq
      exact ⟨n, hn.1, by omega, hok, heq.symm⟩
    · exact absurd heq (Option.noConfusion)
  · rintro ⟨n, h1, h2, hok, heq⟩
    refine ⟨n, List.mem_range'_1.mpr ⟨h1, by omega⟩, ?_⟩
    rw [if_pos hok, heq]

theorem mem_minOnly {ls : List (List ℕ)} {l : List ℕ} :
    l ∈ minOnly ls ↔ l ∈ ls ∧ ∀ l2 ∈ ls, l.length ≤ l2.length := by
  unfold minOnly
  rw [List.mem_filter, List.all_eq_true]
  simp

theorem exists_min_length : ∀ (ls : List (List ℕ)), ls ≠ [] →
    ∃ l ∈ ls, ∀ l2 ∈ ls, l.length ≤ l2.length := by
  intro ls
  induction ls with
  | nil => intro h; exact absurd rfl h
  | cons a tl ih =>
    intro _
    by_cases htl : tl = []
    · subst htl
      exact ⟨a, List.mem_cons_self a [], by
        intro l2 hl2
        rcases List.mem_cons.mp hl2 with h | h
        · rw [h]
        · exact absurd h (List.not_mem_nil l2)⟩
    · obtain ⟨b, hb, hmin⟩ := ih htl
      by_cases hab : a.length ≤ b.length
      · refine ⟨a, List.mem_cons_self a tl, ?_⟩
        intro l2 hl2
        rcases List.mem_cons.mp hl2 with h | h
        · rw [h]
        · exact hab.trans (hmin l2 h)
      · refine ⟨b, List.mem_cons_of_mem a hb, ?_⟩
        intro l2 hl2
        rcases List.mem_cons.mp hl2 with h | h
        · rw [h]; omega
        · exact hmin l2 h

theorem minOnly_ne_nil {ls : List (List ℕ)} (h : ls ≠ []) : minOnly ls ≠ [] := by
  obtain ⟨l, hl, hmin⟩ := exists_min_length ls h
  intro hempty
  have hmem : l ∈ minOnly ls := mem_minOnly.mpr ⟨hl, hmin⟩
  rw [hempty] at hmem
  exact (List.not_mem_nil l) hmem

/-! ### `Minimize` branch lemmas -/

theorem Minimize_fst_pos {c : Cover} (h : (simplify (initCover c)).2 = true) :
    (Minimize c).1 = [essList (simplify (initCover c)).1] := by
  simp [Minimize, h]

theorem Minimize_fst_neg {c : Cover} (h : (simplify (initCover c)).2 = false) :
    (Minimize c).1 = minOnly (allCovers (simplify (initCover c)).1) := by
  simp [Minimize, h]

theorem Minimize_snd (c : Cover) : (Minimize c).2 = (simplify (initCover c)).1 := rfl

/-! ### Assembly: soundness, minimality, nonemptiness of `Minimize` -/

/-- If no element key survived simplification, every recorded element is
contained in an essential subset. -/
theorem essential_covers_of_empty {d : Cover} (hi : RedInv d) (hes : d.es = ∅)
    {e : ℕ} (he : e ∈ d.inss.image Prod.snd) :
    ∃ s ∈ d.essential, (s, e) ∈ d.inss := by
  obtain ⟨-, hiff, -⟩ := hi
  have : e ∉ d.es := by rw [hes]; exact Finset.not_mem_empty e
  have hnot : ¬ (e ∈ d.inss.image Prod.snd ∧ ∀ s ∈ d.essential, (s, e) ∉ d.inss) :=
    fun hcon => this ((hiff e).mpr hcon)
  push_neg at hnot
  obtain ⟨t, ht, hte⟩ := hnot he
  exact ⟨t, ht, hte⟩

/-- Any element still uncovered after simplification is contained in an
essential subset as soon as it is not a residual element. -/
theorem essential_covers_of_not_es {d : Cover} (hi : RedInv d)
    {e : ℕ} (he : e ∈ d.inss.image Prod.snd) (hne : e ∉ d.es) :
    ∃ s ∈ d.essential, (s, e) ∈ d.inss := by
  obtain ⟨-, hiff, -⟩ := hi
  have hnot : ¬ (e ∈ d.inss.image Prod.snd ∧ ∀ s ∈ d.essential, (s, e) ∉ d.inss) :=
    fun hcon => hne ((hiff e).mpr hcon)
  push_neg at hnot
  obtain ⟨t, ht, hte⟩ := hnot he
  exact ⟨t, ht, hte⟩

theorem minimize_sound_aux {c : Cover} (hw : c.ines = c.inss.image Prod.swap)
    {combo : List ℕ} (hc : combo ∈ (Minimize c).1) {e : ℕ}
    (he : e ∈ c.inss.image Prod.snd) : ∃ s ∈ combo, (s, e) ∈ c.inss := by
  obtain ⟨hi, hn⟩ := good_minimize_state hw
  have hfsinss : (simplify (initCover c)).1.inss = c.inss := by
    rw [simplify_inss, initCover_inss]
  rw [← hfsinss] at he ⊢
  cases hok : (simplify (initCover c)).2 with
  | true =>
    rw [Minimize_fst_pos hok, List.mem_singleton] at hc
    subst hc
    have hes : (simplify (initCover c)).1.es = ∅ := simplify_snd_iff.mp hok
    obtain ⟨s, hs, hse⟩ := essential_covers_of_empty hi hes he
    exact ⟨s, mem_essList.mpr hs, hse⟩
  | false =>
    rw [Minimize_fst_neg hok] at hc
    obtain ⟨hc1, -⟩ := mem_minOnly.mp hc
    obtain ⟨n, -, -, hokc, heq⟩ := mem_allCovers.mp hc1
    subst heq
    by_cases hees : e ∈ (simplify (initCover c)).1.es
    · obtain ⟨s, hs, hse⟩ := hokc e hees
      have := (mem_esVal_inss hi.1).mp hse
      exact ⟨s, List.mem_append_right _ hs, this.1⟩
    · obtain ⟨s, hs, hse⟩ := essential_covers_of_not_es hi he hees
      exact ⟨s, List.mem_append_left _ (mem_essList.mpr hs), hse⟩

/-- The residual selection extracted from a normalized covering combination:
its non-essential part covers every residual element. -/
theorem sdiff_covers_residual {d : Cover} (hi : RedInv d)
    {D : Finset ℕ} (hDcov : Covers d.inss D) (hDss : D \ d.essential ⊆ d.ss)
    {e : ℕ} (he : e ∈ d.es) : ∃ t ∈ D \ d.essential, t ∈ esVal d e := by
  obtain ⟨hwf, hiff, -⟩ := hi
  have heU : e ∈ d.inss.image Prod.snd := ((hiff e).mp he).1
  obtain ⟨t, htD, hte⟩ := hDcov e heU
  have htess : t ∉ d.essential := fun hmem => ((hiff e).mp he).2 t hmem hte
  have htS : t ∈ D \ d.essential := Finset.mem_sdiff.mpr ⟨htD, htess⟩
  exact ⟨t, htS, (mem_esVal_inss hwf).mpr ⟨hte, hDss htS⟩⟩

/-- From a nonempty residual selection contained in the snapshot that covers
every residual element, the search finds a combination of the corresponding
length. -/
theorem allCovers_of_selection {d : Cover} {S : Finset ℕ} (hSss : S ⊆ d.ss)
    (hSne : S.Nonempty) (hScov : ∀ e ∈ d.es, ∃ t ∈ S, t ∈ esVal d e) :
    ∃ combo ∈ allCovers d, combo.length = d.essential.card + S.card := by
  obtain ⟨n, hlt, htf, hlen, hpos⟩ := exists_selBits (ssList d) S
    fun x hx => mem_ssList.mpr (hSss hx)
  have hokc : coversOK d (selBits (ssList d) n) := by
    intro e he
    obtain ⟨t, htS, hte⟩ := hScov e he
    refine ⟨t, ?_, hte⟩
    rw [← List.mem_toFinset, htf]
    exact htS
  refine ⟨essList d ++ selBits (ssList d) n,
    mem_allCovers.mpr ⟨n, hpos hSne, hlt, hokc, rfl⟩, ?_⟩
  rw [List.length_append, essList_length, hlen]

theorem minimize_minimal_aux {c : Cover} (hw : c.ines = c.inss.image Prod.swap)
    {C : Finset ℕ} (hC : Covers c.inss C)
    {combo : List ℕ} (hc : combo ∈ (Minimize c).1) : combo.length ≤ C.card := by
  obtain ⟨hi, hn⟩ := good_minimize_state hw
  have hfsinss : (simplify (initCover c)).1.inss = c.inss := by
    rw [simplify_inss, initCover_inss]
  rw [← hfsinss] at hC
  obtain ⟨D, hDcov, hDcard, hDess, hDss⟩ := hn C hC
  cases hok : (simplify (initCover c)).2 with
  | true =>
    rw [Minimize_fst_pos hok, List.mem_singleton] at hc
    subst hc
    rw [essList_length]
    exact (Finset.card_le_card hDess).trans hDcard
  | false =>
    rw [Minimize_fst_neg hok] at hc
    obtain ⟨-, hminall⟩ := mem_minOnly.mp hc
    have hesne : (simplify (initCover c)).1.es ≠ ∅ := by
      intro hcon
      rw [← simplify_snd_iff] at hcon
      rw [hok] at hcon
      exact Bool.false_ne_true hcon
    obtain ⟨e0, he0⟩ := Finset.nonempty_iff_ne_empty.mpr hesne
    have hScov : ∀ e ∈ (simplify (initCover c)).1.es,
        ∃ t ∈ D \ (simplify (initCover c)).1.essential,
          t ∈ esVal (simplify (initCover c)).1 e :=
      fun e he => sdiff_covers_residual hi hDcov hDss he
    obtain ⟨t0, ht0, -⟩ := hScov e0 he0
    obtain ⟨member, hmem, hmlen⟩ := allCovers_of_selection hDss ⟨t0, ht0⟩ hScov
    have h1 : combo.length ≤ member.length := hminall member hmem
    have h2 : (D \ (simplify (initCover c)).1.essential).card +
        (simplify (initCover c)).1.essential.card = D.card :=
      Finset.card_sdiff_add_card_eq_card hDess
    omega

theorem minimize_lengths_eq_aux {c : Cover} {c1 c2 : List ℕ}
    (h1 : c1 ∈ (Minimize c).1) (h2 : c2 ∈ (Minimize c).1) :
    c1.length = c2.length := by
  cases hok : (simplify (initCover c)).2 with
  | true =>
    rw [Minimize_fst_pos hok, List.mem_singleton] at h1 h2
    rw [h1, h2]
  | false =>
    rw [Minimize_fst_neg hok] at h1 h2
    obtain ⟨hm1, hall1⟩ := mem_minOnly.mp h1
    obtain ⟨hm2, hall2⟩ := mem_minOnly.mp h2
    exact Nat.le_antisymm (hall1 c2 hm2) (hall2 c1 hm1)

theorem minimize_ne_nil_aux {c : Cover} (hw : c.ines = c.inss.image Prod.swap) :
    (Minimize c).1 ≠ [] := by
  obtain ⟨hi, -⟩ := good_minimize_state hw
  cases hok : (simplify (initCover c)).2 with
  | true =>
    rw [Minimize_fst_pos hok]
    exact List.cons_ne_nil _ _
  | false =>
    rw [Minimize_fst_neg hok]
    have hesne : (simplify (initCover c)).1.es ≠ ∅ := by
      intro hcon
      rw [← simplify_snd_iff] at hcon
      rw [hok] at hcon
      exact Bool.false_ne_true hcon
    obtain ⟨e0, he0⟩ := Finset.nonempty_iff_ne_empty.mpr hesne
    have hScov : ∀ e ∈ (simplify (initCover c)).1.es,
        ∃ t ∈ (simplify (initCover c)).1.ss, t ∈ esVal (simplify (initCover c)).1 e := by
      intro e he
      obtain ⟨s, hs, hse⟩ := hi.2.2 e he
      exact ⟨s, hs, (mem_esVal_inss hi.1).mpr ⟨hse, hs⟩⟩
    obtain ⟨t0, ht0, -⟩ := hScov e0 he0
    obtain ⟨member, hmem, -⟩ := allCovers_of_selection (Finset.Subset.refl _)
      ⟨t0, ht0⟩ hScov
    exact minOnly_ne_nil (List.ne_nil_of_mem hmem)

/-! ### Final helpers -/

theorem initCover_congr {c d : Cover} (h1 : c.inss = d.inss) (h2 : c.ines = d.ines) :
    initCover c = initCover d := by
  obtain ⟨i1, i2, s1, e1, x1⟩ := c
  obtain ⟨j1, j2, s2, e2, x2⟩ := d
  simp only at h1 h2
  subst h1
  subst h2
  rfl

theorem minimize_congr {c d : Cover} (h1 : c.inss = d.inss) (h2 : c.ines = d.ines) :
    (Minimize c).1 = (Minimize d).1 := by
  unfold Minimize
  rw [initCover_congr h1 h2]

theorem buildCover_all_empty (l : List (ℕ × List ℕ)) (h : ∀ p ∈ l, p.2 = []) :
    buildCover l = Cover.New := by
  unfold buildCover
  have aux : ∀ (l : List (ℕ × List ℕ)) (c : Cover), (∀ p ∈ l, p.2 = []) →
      l.foldl (fun c q => Cover.Add c q.1 q.2) c = c := by
    intro l
    induction l with
    | nil => intro c _; rfl
    | cons q tl ih =>
      intro c hq
      rw [List.foldl_cons]
      have hq2 : q.2 = [] := hq q (List.mem_cons_self q tl)
      have hstep : Cover.Add c q.1 q.2 = c := by rw [hq2]; rfl
      rw [hstep]
      exact ih c fun p hp => hq p (List.mem_cons_of_mem q hp)
  exact aux l Cover.New h

/-! ### The claims -/

/-- C1: Soundness of Minimize — for every store built by a sequence of `Add`
calls, every combination returned by `Minimize` covers all elements ever
added: each added element is contained in at least one subset of each
returned combination. -/
theorem minimize_sound (l : List (ℕ × List ℕ)) (combo : List ℕ)
    (hc : combo ∈ (Minimize (buildCover l)).1) (e : ℕ)
    (he : e ∈ (buildCover l).inss.image Prod.snd) :
    ∃ s ∈ combo, (s, e) ∈ (buildCover l).inss :=
  minimize_sound_aux (buildCover_wf l) hc he

theorem minimize_sound_witness :
    [0, 3] ∈ (Minimize (buildCover [(0, [1, 2]), (3, [2, 4])])).1 ∧
    (1 : ℕ) ∈ (buildCover [(0, [1, 2]), (3, [2, 4])]).inss.image Prod.snd ∧
    ∃ s ∈ [0, 3], (s, (1 : ℕ)) ∈ (buildCover [(0, [1, 2]), (3, [2, 4])]).inss :=
  ⟨by decide, by decide,
   minimize_sound [(0, [1, 2]), (3, [2, 4])] [0, 3] (by decide) 1 (by decide)⟩

/-- C2: Minimality of Minimize — for every store built by `Add` calls, no
covering combination has strictly fewer subsets than any combination returned
by `Minimize`, and all returned combinations have the same (minimum)
cardinality. -/
theorem minimize_minimal (l : List (ℕ × List ℕ)) (C : Finset ℕ)
    (hC : Covers (buildCover l).inss C) :
    (∀ combo ∈ (Minimize (buildCover l)).1, combo.length ≤ C.card) ∧
    (∀ c1 ∈ (Minimize (buildCover l)).1, ∀ c2 ∈ (Minimize (buildCover l)).1,
      c1.length = c2.length) :=
  ⟨fun _ hc => minimize_minimal_aux (buildCover_wf l) hC hc,
   fun _ h1 _ h2 => minimize_lengths_eq_aux h1 h2⟩

theorem minimize_minimal_witness :
    Covers (buildCover [(0, [1, 2]), (3, [2, 4])]).inss {0, 3} ∧
    [0, 3] ∈ (Minimize (buildCover [(0, [1, 2]), (3, [2, 4])])).1 ∧
    [0, 3].length ≤ ({0, 3} : Finset ℕ).card :=
  ⟨by decide, by decide,
   (minimize_minimal [(0, [1, 2]), (3, [2, 4])] {0, 3} (by decide)).1 [0, 3] (by decide)⟩

/-- C3: the completeness claim fails on the code.  For the store with subset
0 = \x7b0, 1\x7d, subset 1 = \x7b0\x7d, subset 2 = \x7b1, 2\x7d, the combination
\x7b1, 2\x7d covers every element and has minimum cardinality (no cover of
cardinality below 2 exists among the recorded subsets, and a subset never
recorded covers no element), yet `Minimize` returns only the single
combination [0, 2]: subset 1 was removed by domination elimination even
though it belongs to the minimum cover \x7b1, 2\x7d, which is therefore not
returned at all, contradicting the doc comment of `Minimize` ("returns all
minimum-length combinations"). -/
theorem minimize_misses_min_cover :
    (Minimize (buildCover [(0, [0, 1]), (1, [0]), (2, [1, 2])])).1 = [[0, 2]] ∧
    Covers (buildCover [(0, [0, 1]), (1, [0]), (2, [1, 2])]).inss {1, 2} ∧
    ({1, 2} : Finset ℕ).card = 2 ∧
    (((buildCover [(0, [0, 1]), (1, [0]), (2, [1, 2])]).inss.image Prod.fst).powerset.filter
      fun C => Covers (buildCover [(0, [0, 1]), (1, [0]), (2, [1, 2])]).inss C ∧ C.card < 2) = ∅ ∧
    [1, 2] ∉ (Minimize (buildCover [(0, [0, 1]), (1, [0]), (2, [1, 2])])).1 ∧
    [2, 1] ∉ (Minimize (buildCover [(0, [0, 1]), (1, [0]), (2, [1, 2])])).1 := by
  decide

/-- C4 (counterexample): `simplify` returns true on this store, but the
essential set \x7b0, 2\x7d is not the *unique* minimum cover — \x7b1, 2\x7d is a
different covering combination of the same cardinality, and no cover of
cardinality 1 exists among the recorded subsets. -/
theorem simplify_unique_cex :
    (simplify (initCover (buildCover [(0, [0, 1]), (1, [0]), (2, [1, 2])]))).2 = true ∧
    (simplify (initCover (buildCover [(0, [0, 1]), (1, [0]), (2, [1, 2])]))).1.essential = {0, 2} ∧
    Covers (buildCover [(0, [0, 1]), (1, [0]), (2, [1, 2])]).inss {1, 2} ∧
    ({1, 2} : Finset ℕ).card = ({0, 2} : Finset ℕ).card ∧
    ({1, 2} : Finset ℕ) ≠ {0, 2} ∧
    (((buildCover [(0, [0, 1]), (1, [0]), (2, [1, 2])]).inss.image Prod.fst).powerset.filter
      fun C => Covers (buildCover [(0, [0, 1]), (1, [0]), (2, [1, 2])]).inss C ∧ C.card ≤ 1) = ∅ := by
  decide

/-- C4 (amended): `simplify` returns true iff at the fixed point no element
keys remain in the working snapshot, and when it returns true the essential
set collected during reduction is a minimum cover of the store (not
necessarily the unique one) and `Minimize` returns it as the sole answer. -/
theorem simplify_covered_iff (c : Cover) (hw : c.ines = c.inss.image Prod.swap) :
    ((simplify (initCover c)).2 = true ↔ (simplify (initCover c)).1.es = ∅) ∧
    ((simplify (initCover c)).2 = true →
      Covers c.inss (simplify (initCover c)).1.essential ∧
      (∀ C : Finset ℕ, Covers c.inss C →
        (simplify (initCover c)).1.essential.card ≤ C.card) ∧
      (Minimize c).1 = [essList (simplify (initCover c)).1]) := by
  obtain ⟨hi, hn⟩ := good_minimize_state hw
  have hfsinss : (simplify (initCover c)).1.inss = c.inss := by
    rw [simplify_inss, initCover_inss]
  refine ⟨simplify_snd_iff, fun hok => ⟨?_, ?_, Minimize_fst_pos hok⟩⟩
  · intro e he
    rw [← hfsinss] at he
    have h := essential_covers_of_empty hi (simplify_snd_iff.mp hok) he
    rwa [hfsinss] at h
  · intro C hC
    rw [← hfsinss] at hC
    obtain ⟨D, -, hDcard, hDess, -⟩ := hn C hC
    exact (Finset.card_le_card hDess).trans hDcard

theorem simplify_covered_iff_witness :
    (simplify (initCover (buildCover [(5, [7])]))).2 = true ∧
    Covers (buildCover [(5, [7])]).inss
      (simplify (initCover (buildCover [(5, [7])]))).1.essential ∧
    (Minimize (buildCover [(5, [7])])).1 =
      [essList (simplify (initCover (buildCover [(5, [7])]))).1] :=
  ⟨by decide,
   ((simplify_covered_iff (buildCover [(5, [7])]) (buildCover_wf _)).2 (by decide)).1,
   ((simplify_covered_iff (buildCover [(5, [7])]) (buildCover_wf _)).2 (by decide)).2.2⟩

/-- C5: domination is strict — `dominates d s` holds iff `s`'s snapshot
element set is contained in `d`'s and `d` covers strictly more elements;
hence two subsets with the same element set never dominate each other, and on
the store with subsets 0 = \x7b5\x7d and 1 = \x7b5\x7d, `Minimize` returns exactly the
two combinations [0] and [1]. -/
theorem dominates_strict :
    (∀ (c : Cover) (d s : ℕ), dominates c d s ↔
      ssVal c s ⊆ ssVal c d ∧ (ssVal c s).card < (ssVal c d).card) ∧
    (∀ (c : Cover) (a b : ℕ), ssVal c a = ssVal c b →
      ¬ dominates c a b ∧ ¬ dominates c b a) ∧
    (Minimize (buildCover [(0, [5]), (1, [5])])).1 = [[0], [1]] := by
  refine ⟨fun c d s => Iff.rfl, fun c a b h => ?_, by decide⟩
  constructor
  · rintro ⟨-, hlt⟩
    rw [h] at hlt
    omega
  · rintro ⟨-, hlt⟩
    rw [h] at hlt
    omega

theorem dominates_strict_witness :
    ssVal (initCover (buildCover [(0, [5]), (1, [5])])) 0 =
      ssVal (initCover (buildCover [(0, [5]), (1, [5])])) 1 ∧
    ¬ dominates (initCover (buildCover [(0, [5]), (1, [5])])) 0 1 :=
  ⟨by decide,
   (dominates_strict.2.1 (initCover (buildCover [(0, [5]), (1, [5])])) 0 1 (by decide)).1⟩

/-- C6: termination of `simplify` — whenever one essential-extraction pass
and the following domination pass both report progress, the snapshot size
(remaining subsets plus remaining elements) strictly decreases; consequently
the alternating loop reaches its fixed point within the fuel `simplify`
supplies, and any larger fuel gives the same result. -/
theorem simplify_terminates :
    (∀ c : Cover, c.ines = c.inss.image Prod.swap →
      (reduceE c).2 = true → (reduceS (reduceE c).1).2 = true →
      snapMeasure (reduceS (reduceE c).1).1 < snapMeasure c) ∧
    (∀ (n : ℕ) (c : Cover), c.ss.card < n →
      simplifyLoop n c = simplifyLoop (c.ss.card + 1) c) := by
  constructor
  · intro c hw hE hS
    have h1 : (reduceE c).1.ss.card < c.ss.card := reduceE_ss_card hE
    have h2 := Finset.card_lt_card (reduceE_es_ssubset hw hE)
    have h3 := Finset.card_lt_card (reduceS_ss_ssubset hS)
    have h4 : (reduceS (reduceE c).1).1.es = (reduceE c).1.es := reduceS_es _
    unfold snapMeasure
    rw [h4]
    omega
  · intro n c hn
    exact simplifyLoop_fuel n (c.ss.card + 1) c hn (by omega)

theorem simplify_terminates_witness :
    stateC6.ines = stateC6.inss.image Prod.swap ∧
    (reduceE stateC6).2 = true ∧
    (reduceS (reduceE stateC6).1).2 = true ∧
    snapMeasure (reduceS (reduceE stateC6).1).1 < snapMeasure stateC6 ∧
    simplifyLoop 5 stateC6 = simplifyLoop (stateC6.ss.card + 1) stateC6 :=
  ⟨by decide, by decide, by decide,
   simplify_terminates.1 stateC6 (by decide) (by decide) (by decide),
   simplify_terminates.2 5 stateC6 (by decide)⟩

/-- C7: empty-store behaviour — `Minimize` on a store to which no
(subset, element) pair was ever added (every `Add` call had an empty element
list) returns exactly one result, the empty combination. -/
theorem minimize_empty (l : List (ℕ × List ℕ)) (h : ∀ p ∈ l, p.2 = []) :
    (Minimize (buildCover l)).1 = [[]] := by
  rw [buildCover_all_empty l h]
  decide

theorem minimize_empty_witness :
    (∀ p ∈ [((3 : ℕ), ([] : List ℕ))], p.2 = []) ∧
    (Minimize (buildCover [(3, [])])).1 = [[]] :=
  ⟨by decide, minimize_empty [(3, [])] (by decide)⟩

/-- C8: frame property — `Minimize` never changes the incidence store (the
`inss` and `ines` fields of the returned receiver state equal the input
ones), and calling `Minimize` again on the resulting receiver returns the
same combinations. -/
theorem minimize_frame (c : Cover) :
    (Minimize c).2.inss = c.inss ∧ (Minimize c).2.ines = c.ines ∧
    (Minimize ((Minimize c).2)).1 = (Minimize c).1 := by
  have h1 : (Minimize c).2.inss = c.inss := by
    rw [Minimize_snd, simplify_inss, initCover_inss]
  have h2 : (Minimize c).2.ines = c.ines := by
    rw [Minimize_snd, simplify_ines, initCover_ines]
  exact ⟨h1, h2, minimize_congr h1 h2⟩

/-- C9: functional specification of `Add` — an `Add` call with no elements
leaves the store unchanged; after any sequence of calls the store records
exactly the supplied (subset, element) pairs (union semantics, so duplicate
pairs are idempotent and a subset supplied only with zero elements is never
present); and the two incidence directions are exact inverses. -/
theorem add_exact :
    (∀ (c : Cover) (s : ℕ), Cover.Add c s [] = c) ∧
    (∀ (l : List (ℕ × List ℕ)) (s e : ℕ),
      (s, e) ∈ (buildCover l).inss ↔ ∃ q ∈ l, q.1 = s ∧ e ∈ q.2) ∧
    (∀ l : List (ℕ × List ℕ),
      (buildCover l).ines = (buildCover l).inss.image Prod.swap) ∧
    (∀ (l : List (ℕ × List ℕ)) (s : ℕ) (es : List ℕ),
      (buildCover (l ++ [(s, es), (s, es)])).inss =
        (buildCover (l ++ [(s, es)])).inss) := by
  refine ⟨fun c s => rfl, fun l s e => mem_buildCover_inss, buildCover_wf, ?_⟩
  intro l s es
  ext ⟨a, b⟩
  simp only [mem_buildCover_inss, List.mem_append, List.mem_cons,
    List.not_mem_nil, or_false]
  constructor
  · rintro ⟨q, hq | hq | hq, h3, h4⟩
    · exact ⟨q, Or.inl hq, h3, h4⟩
    · exact ⟨q, Or.inr hq, h3, h4⟩
    · exact ⟨q, Or.inr hq, h3, h4⟩
  · rintro ⟨q, hq | hq, h3, h4⟩
    · exact ⟨q, Or.inl hq, h3, h4⟩
    · exact ⟨q, Or.inr (Or.inl hq), h3, h4⟩

/-- C10: implicit invariant — after simplification every element key
remaining in the working snapshot is still contained in at least one
remaining snapshot subset, and consequently `Minimize` always returns at
least one combination. -/
theorem snapshot_covered (l : List (ℕ × List ℕ)) :
    (∀ e ∈ (Minimize (buildCover l)).2.es,
      ∃ s ∈ (Minimize (buildCover l)).2.ss, (s, e) ∈ (buildCover l).inss) ∧
    (Minimize (buildCover l)).1 ≠ [] := by
  have hw := buildCover_wf l
  obtain ⟨hi, -⟩ := good_minimize_state hw
  constructor
  · intro e he
    rw [Minimize_snd] at he ⊢
    have h := hi.2.2 e he
    rwa [simplify_inss, initCover_inss] at h
  · exact minimize_ne_nil_aux hw

theorem snapshot_covered_witness :
    (5 : ℕ) ∈ (Minimize (buildCover [(0, [5]), (1, [5])])).2.es ∧
    (∃ s ∈ (Minimize (buildCover [(0, [5]), (1, [5])])).2.ss,
      (s, (5 : ℕ)) ∈ (buildCover [(0, [5]), (1, [5])]).inss) ∧
    (Minimize (buildCover [(0, [5]), (1, [5])])).1 ≠ [] :=
  ⟨by decide,
   (snapshot_covered [(0, [5]), (1, [5])]).1 5 (by decide),
   (snapshot_covered [(0, [5]), (1, [5])]).2⟩
